import Mathlib

/-!
Verification of the `argon-router-paths` template compiler
(`src/packages/argon-router-paths/lib/compile.ts`).

Strings are modelled as `List Char` (`Str`).  JS `String.prototype.split`,
`Array.prototype.join`, `encodeURI`, `decodeURI` and `parseInt` are modelled
character-by-character; the URI codec is modelled on the ASCII fragment
(characters with code point at least 128 are kept verbatim by the model).
-/

namespace ArgonPaths

abbrev Str := List Char

def S (s : String) : Str := s.toList

/-- JS `s.split(c)` for a single-character separator. -/
def splitOnChar (sep : Char) : Str → List Str
  | [] => [[]]
  | c :: rest =>
    match splitOnChar sep rest with
    | [] => [[]]
    | t :: ts => if c = sep then [] :: t :: ts else (c :: t) :: ts

/-- JS `arr.join('/')`. -/
def joinSlash : List Str → Str
  | [] => []
  | [x] => x
  | x :: xs => x ++ '/' :: joinSlash xs

def splitSlash (s : Str) : List Str := splitOnChar '/' s

/-- `path.split('/').filter(Boolean)` — non-empty strings are the truthy ones. -/
def splitNonEmpty (s : Str) : List Str := (splitSlash s).filter (fun t => ¬ t.isEmpty)

/-! ### URI codec (`encodeURI` / `decodeURI`), modelled on the ASCII fragment -/
def uriUnreservedMark (c : Char) : Bool :=
  c = '-' ∨ c = '_' ∨ c = '.' ∨ c = '!' ∨ c = '~' ∨ c = '*' ∨
    c = Char.ofNat 39 ∨ c = '(' ∨ c = ')'

def uriReserved (c : Char) : Bool :=
  c = ';' ∨ c = '/' ∨ c = '?' ∨ c = ':' ∨ c = '@' ∨ c = '&' ∨ c = '=' ∨
    c = '+' ∨ c = '$' ∨ c = ',' ∨ c = '#'

/-- Characters `encodeURI` leaves unescaped.  The model keeps non-ASCII
characters verbatim (faithful to JS only on the ASCII range). -/
def uriKeep (c : Char) : Bool :=
  c.isAlphanum ∨ uriUnreservedMark c ∨ uriReserved c ∨ 128 ≤ c.toNat

def hexDigitChar (n : Nat) : Char :=
  if n < 10 then Char.ofNat (48 + n) else Char.ofNat (55 + n)

def hexVal (c : Char) : Option Nat :=
  if 48 ≤ c.toNat ∧ c.toNat ≤ 57 then some (c.toNat - 48)
  else if 65 ≤ c.toNat ∧ c.toNat ≤ 70 then some (c.toNat - 55)
  else if 97 ≤ c.toNat ∧ c.toNat ≤ 102 then some (c.toNat - 87)
  else none

def encodeChar (c : Char) : Str :=
  if uriKeep c then [c]
  else ['%', hexDigitChar (c.toNat / 16), hexDigitChar (c.toNat % 16)]

def encodeURI : Str → Str
  | [] => []
  | c :: rest => encodeChar c ++ encodeURI rest

/-- One `%XX` escape: `tail` is the decoding of the remaining input. -/
def decodePercent (h1 h2 : Char) (tail : Option Str) : Option Str :=
  match hexVal h1, hexVal h2 with
  | some v1, some v2 =>
    if 128 ≤ 16 * v1 + v2 then none
    else if uriReserved (Char.ofNat (16 * v1 + v2)) then
      tail.map (fun d => '%' :: h1 :: h2 :: d)
    else tail.map (fun d => Char.ofNat (16 * v1 + v2) :: d)
  | _, _ => none

/-- `decodeURI`: decodes `%XX` escapes except those of the reserved set, which
are kept verbatim; malformed escapes yield `none` (the JS `URIError`). -/
def decodeURI : Str → Option Str
  | [] => some []
  | c :: rest =>
    if c = '%' then
      match rest with
      | h1 :: h2 :: rest2 => decodePercent h1 h2 (decodeURI rest2)
      | _ => none
    else (decodeURI rest).map (fun d => c :: d)

/-! ### JS `parseInt` (radix 10, with the `0x` hex prefix) -/
def isSpaceJS (c : Char) : Bool :=
  c.toNat = 32 ∨ c.toNat = 9 ∨ c.toNat = 10 ∨ c.toNat = 13 ∨
    c.toNat = 11 ∨ c.toNat = 12

def digitVal (radix : Nat) : Char → Option Nat := fun c =>
  match hexVal c with
  | some v => if v < radix then some v else none
  | none => none

/-- `parseInt(s)` with no radix argument: `none` models `NaN`.
The model computes exact integers (JS loses precision beyond 2^53;
no claim involves such magnitudes). -/
def jsParseInt (s : Str) : Option Int :=
  let s1 := s.dropWhile isSpaceJS
  let signAndRest : Int × Str :=
    match s1 with
    | '-' :: r => (-1, r)
    | '+' :: r => (1, r)
    | _ => (1, s1)
  let radixAndRest : Nat × Str :=
    match signAndRest.2 with
    | '0' :: 'x' :: r => (16, r)
    | '0' :: 'X' :: r => (16, r)
    | _ => (10, signAndRest.2)
  let digits := radixAndRest.2.takeWhile (fun c => (digitVal radixAndRest.1 c).isSome)
  if digits.isEmpty then none
  else some (signAndRest.1 *
    (digits.foldl (fun acc c => acc * (radixAndRest.1 : Int) +
      ((digitVal radixAndRest.1 c).getD 0 : Int)) 0))

/-! ### Data model (`RawRules`, `Block`) -/
inductive ValueType
  | string
  | number
  | union (values : List Str)
deriving DecidableEq, Repr

structure ArrayRules where
  minLength : Option Nat
  maxLength : Option Nat
deriving DecidableEq, Repr

structure RawRules where
  required : Bool
  type : ValueType
  array : Option ArrayRules
deriving DecidableEq, Repr

/-- A compiled segment descriptor.  The source stores generated
validator/parser closures; those are pure functions of `rules` and are
modelled below as functions taking the rules explicitly. -/
inductive Block
  | part (value : Str)
  | parameter (name : Str) (rules : RawRules)
deriving DecidableEq, Repr

/-- JS runtime values that flow through `parse`/`build`. -/
inductive Value
  | str (s : Str)
  | num (n : Int)
  | nan
  | bool (b : Bool)
  | undef
  | null
  | arr (vs : List Value)

abbrev Params := List (Str × Value)

/-- JS truthiness of a `Value`. -/
def truthyV : Value → Bool
  | .str s => ¬ s.isEmpty
  | .num n => n ≠ 0
  | .nan => false
  | .bool b => b
  | .undef => false
  | .null => false
  | .arr _ => true

/-- `anyParams[name]` — absent keys read as `undefined`. -/
def lookupParam (name : Str) : Params → Value
  | [] => .undef
  | (k, v) :: rest => if k = name then v else lookupParam name rest

/-! ### The template compiler (`compile`), lib/compile.ts lines 173-249 -/
/-- JS `\w`: `[A-Za-z0-9_]`. -/
def isWordChar (c : Char) : Bool := c.isAlpha ∨ c.isDigit ∨ c = '_'

def isGenericChar (c : Char) : Bool := isWordChar c ∨ c = '|'

def isModChar (c : Char) : Bool := c = '+' ∨ c = '*' ∨ c = '?'

structure RegexCaptures where
  name : Str
  /-- content between the angle brackets of `matches[2]` (the source strips
  them with `replace('<','').replace('>','')`; the content is `[\w|]+` so the
  two are equivalent). -/
  generic : Option Str
  modif : Option Char
deriving DecidableEq, Repr

/-- Attempt of `/:(\w+)(<[\w|]+>)?([+*?])?/` anchored at the head of `s`. -/
def matchParamAt (s : Str) : Option RegexCaptures :=
  match s with
  | ':' :: rest =>
    let name := rest.takeWhile isWordChar
    if name.isEmpty then none
    else
      let rest1 := rest.dropWhile isWordChar
      let genericAndRest : Option Str × Str :=
        match rest1 with
        | '<' :: r =>
          let inner := r.takeWhile isGenericChar
          match r.dropWhile isGenericChar with
          | '>' :: r2 => if inner.isEmpty then (none, rest1) else (some inner, r2)
          | _ => (none, rest1)
        | _ => (none, rest1)
      let modif : Option Char :=
        match genericAndRest.2 with
        | m :: _ => if isModChar m then some m else none
        | [] => none
      some ⟨name, genericAndRest.1, modif⟩
  | _ => none

/-- `block.match(regexp)`: the JS regex is unanchored, so this searches for
the leftmost match position. -/
def matchParam : Str → Option RegexCaptures
  | [] => none
  | c :: rest =>
    match matchParamAt (c :: rest) with
    | some m => some m
    | none => matchParam rest

/-- Error classes of the source (`throw new Error(...)`). -/
inductive CompileError
  | unnamedParam (path : Str)
deriving DecidableEq, Repr

inductive BuildError
  | missingParam (name : Str)
  | objectParam
deriving DecidableEq, Repr

/-- Rule derivation for one parameter token (compile.ts lines 207-240). -/
def deriveRules (generic : Option Str) (modif : Option Char) : RawRules :=
  let base : RawRules := { required := true, type := .string, array := none }
  let typed : RawRules :=
    match generic with
    | none => base
    | some g =>
      let t1 := if g = S "number" then ValueType.number else ValueType.string
      let t2 := if g.contains '|' then
          ValueType.union ((splitOnChar '|' g).filter (fun t => ¬ t.isEmpty))
        else t1
      { base with type := t2 }
  match modif with
  | some '*' => { typed with array := some ⟨none, none⟩ }
  | some '+' => { typed with array := some ⟨some 1, none⟩ }
  | some '?' => { typed with required := false }
  | _ => typed

/-- One token of the template (compile.ts lines 182-248). -/
def compileToken (path tok : Str) : Except CompileError Block :=
  match matchParam tok with
  | none => .ok (.part tok)
  | some m =>
    if m.name.isEmpty then .error (.unnamedParam path)
    else .ok (.parameter m.name (deriveRules m.generic m.modif))

/-- The token loop of `compile` (push on success, abort on `throw`). -/
def compileTokens (path : Str) : List Str → Except CompileError (List Block)
  | [] => .ok []
  | tok :: rest =>
    match compileToken path tok with
    | .error e => .error e
    | .ok b => (compileTokens path rest).map (fun bs => b :: bs)

/-- `compile(path)` up to the descriptor list (compile.ts lines 173-249). -/
def compile (path : Str) : Except CompileError (List Block) :=
  compileTokens path (splitNonEmpty path)

/-! ### Validator and parser closures (`generateValidator` / `generateParser`) -/
/-- Truthiness of `getInput()`: `undefined` and the empty string are falsy. -/
def truthySeg : Option Str → Bool
  | none => false
  | some s => ¬ s.isEmpty

/-- `baseValidator` (compile.ts lines 41-66). -/
def baseValidator (rules : RawRules) (input : Option Str) : Bool :=
  if rules.required ∧ ¬ truthySeg input then false
  else if ¬ truthySeg input then true
  else
    match input with
    | none => true
    | some s =>
      match rules.type with
      | .union vs => vs.contains s
      | .number => (jsParseInt s).isSome
      | .string => true

/-- Does the loop guard `result.length < (maxLength ?? Infinity)` hold? -/
def underMax (maxL : Option Nat) (n : Nat) : Bool :=
  match maxL with
  | some m => n < m
  | none => true

/-- The greedy `while` loop of the array validator (compile.ts lines 75-85),
walking the raw-segment suffix starting at the cursor.  Returns the number of
consumed segments, or `none` when a consumed segment fails `baseValidator`
(the `return false` on line 80). -/
def consumeValidate (rules : RawRules) (maxL : Option Nat) :
    List Str → Nat → Option Nat
  | [], n => some n
  | s :: rest, n =>
    if ¬ s.isEmpty ∧ underMax maxL n then
      if baseValidator rules (some s) then consumeValidate rules maxL rest (n + 1)
      else none
    else some n

/-- `result.length > (maxLength ?? Infinity)` (compile.ts line 88). -/
def overMax (maxL : Option Nat) (n : Nat) : Bool :=
  match maxL with
  | some m => m < n
  | none => false

/-- The validator closure (compile.ts lines 68-108) applied at cursor `i`. -/
def validatorRun (rules : RawRules) (parsed : List Str) (i : Nat) : Bool :=
  match rules.array with
  | some ar =>
    match consumeValidate rules ar.maxLength (parsed.drop i) 0 with
    | none => false
    | some n => ¬ (overMax ar.maxLength n ∨ n < ar.minLength.getD 0)
  | none =>
    let input := parsed.get? i
    if rules.required ∧ ¬ truthySeg input then false
    else if ¬ truthySeg input then true
    else baseValidator rules input

/-- `baseParser` (compile.ts lines 112-126). -/
def baseParser (rules : RawRules) (input : Option Str) : Value :=
  if rules.required ∧ ¬ truthySeg input then .null
  else if ¬ truthySeg input then .undef
  else
    match input with
    | none => .undef
    | some s =>
      match rules.type with
      | .number =>
        match jsParseInt s with
        | some n => .num n
        | none => .nan
      | _ => .str s

/-- The greedy `while` loop of the array parser (compile.ts lines 138-144);
it consumes without validating. -/
def consumeParse (rules : RawRules) (maxL : Option Nat) :
    List Str → Nat → List Value
  | [], _ => []
  | s :: rest, n =>
    if ¬ s.isEmpty ∧ underMax maxL n then
      baseParser rules (some s) :: consumeParse rules maxL rest (n + 1)
    else []

/-- The parser closure (compile.ts lines 128-165) applied at cursor `i`. -/
def parserRun (rules : RawRules) (parsed : List Str) (i : Nat) : Value :=
  match rules.array with
  | some ar =>
    let vs := consumeParse rules ar.maxLength (parsed.drop i) 0
    if overMax ar.maxLength vs.length ∨ vs.length < ar.minLength.getD 0 then .undef
    else .arr vs
  | none =>
    let input := parsed.get? i
    if rules.required ∧ ¬ truthySeg input then .null
    else if ¬ truthySeg input then .undef
    else baseParser rules input

/-! ### `parse` (compile.ts lines 274-308) -/
def isNullV : Value → Bool
  | .null => true
  | _ => false

/-- `params[compiledBlock.name] = parsedPayload` — JS property assignment
keeps the original insertion position on overwrite. -/
def upsert (name : Str) (v : Value) : Params → Params
  | [] => [(name, v)]
  | (k, w) :: rest => if k = name then (k, v) :: rest else (k, w) :: upsert name v rest

/-- The descriptor loop of `parse` (compile.ts lines 278-305): `i` is both the
descriptor index and the raw-segment cursor; `params` is `null` until the
first parameter is assigned.  `none` models `return null`. -/
def parseGo (parsed : List Str) : List Block → Nat → Option Params →
    Option (Option Params)
  | [], _, params => some params
  | .part v :: rest, i, params =>
    if parsed.get? i = some v then parseGo parsed rest (i + 1) params else none
  | .parameter name rules :: rest, i, params =>
    if validatorRun rules parsed i then
      let payload := parserRun rules parsed i
      if isNullV payload then none
      else parseGo parsed rest (i + 1) (some (upsert name payload (params.getD [])))
    else none

structure ParseResult where
  path : Str
  params : Option Params

/-- `parse` returns `{path, params}` or `null`; a thrown `URIError` from
`decodeURI` is the outer `none`. -/
inductive ParseOutcome
  | failure
  | success (r : ParseResult)

def parse (blocks : List Block) (input : Str) : Option ParseOutcome :=
  match decodeURI input with
  | none => none
  | some d =>
    some (match parseGo (splitNonEmpty d) blocks 0 none with
      | none => .failure
      | some params => .success ⟨input, params⟩)

/-! ### `build` (compile.ts lines 251-267 and 310-335) -/
mutual

/-- `stringifyParam` (compile.ts lines 251-267). -/
def stringifyParam : Value → Except BuildError Str
  | .arr vs =>
    if vs.isEmpty then .ok []
    else (stringifyList vs).map joinSlash
  | .null => .error .objectParam
  | .str s => if s.isEmpty then .ok [] else .ok s
  | .num n => if n = 0 then .ok [] else .ok (S (toString n))
  | .nan => .ok []
  | .bool b => if b then .ok (S "true") else .ok []
  | .undef => .ok []

/-- `param.map(item => stringifyParam(item))` with JS exception propagation. -/
def stringifyList : List Value → Except BuildError (List Str)
  | [] => .ok []
  | v :: rest =>
    match stringifyParam v with
    | .error e => .error e
    | .ok s => (stringifyList rest).map (fun r => s :: r)

end

/-- The descriptor loop of `build` (compile.ts lines 315-332). -/
def buildGo : List Block → Params → Except BuildError (List Str)
  | [], _ => .ok []
  | .part v :: rest, params => (buildGo rest params).map (fun r => v :: r)
  | .parameter name rules :: rest, params =>
    let v := lookupParam name params
    if ¬ truthyV v ∧ rules.required then .error (.missingParam name)
    else if ¬ truthyV v then buildGo rest params
    else
      match stringifyParam v with
      | .error e => .error e
      | .ok s => (buildGo rest params).map (fun r => s :: r)

/-- `build` (compile.ts lines 310-335). -/
def build (blocks : List Block) (params : Params) : Except BuildError Str :=
  (buildGo blocks params).map
    (fun result => encodeURI ('/' :: joinSlash (result.filter (fun t => ¬ t.isEmpty))))

def noArrayBlocks (bs : List Block) : Prop :=
  ∀ (name : Str) (rules : RawRules), Block.parameter name rules ∈ bs →
    rules.array = none

/-! ### Claim theorems -/
def idPlusBlocks : List Block :=
  [.part (S "profile"),
   .parameter (S "id") ⟨true, .string, some ⟨some 1, none⟩⟩]

def idStarBlocks : List Block :=
  [.part (S "profile"),
   .parameter (S "id") ⟨true, .string, some ⟨none, none⟩⟩]

def idBlocks : List Block :=
  [.part (S "profile"), .parameter (S "id") ⟨true, .string, none⟩]

def numStarBlocks : List Block :=
  [.part (S "profile"),
   .parameter (S "id") ⟨true, .number, some ⟨none, none⟩⟩]

def idOptBlocks : List Block :=
  [.part (S "profile"), .parameter (S "id") ⟨false, .string, none⟩]

def numBlocks : List Block :=
  [.part (S "profile"), .parameter (S "id") ⟨true, .number, none⟩]

def stringifyOk (v : Value) : Prop := ∃ s, stringifyParam v = .ok s

/-- A required parameter whose looked-up value is falsy. -/
def missingWitness (bs : List Block) (ps : Params) : Prop :=
  ∃ (name : Str) (rules : RawRules),
    Block.parameter name rules ∈ bs ∧ rules.required = true ∧
    truthyV (lookupParam name ps) = false

theorem splitSlash_nil : splitSlash [] = [[]] := rfl

theorem splitSlash_cons (c : Char) (s : Str) :
    splitSlash (c :: s) =
      match splitSlash s with
      | [] => [[]]
      | t :: ts => if c = '/' then [] :: t :: ts else (c :: t) :: ts := rfl

theorem splitSlash_ne_nil (s : Str) : splitSlash s ≠ [] := by
  cases s with
  | nil => simp [splitSlash_nil]
  | cons c rest =>
    rw [splitSlash_cons]
    cases h : splitSlash rest with
    | nil => simp
    | cons t ts => by_cases hc : c = '/' <;> simp [hc]

theorem splitSlash_not_mem (s : Str) : ∀ t ∈ splitSlash s, '/' ∉ t := by
  induction s with
  | nil => intro t ht; rw [splitSlash_nil] at ht; simp at ht; simp [ht]
  | cons c rest ih =>
    intro t ht
    cases h : splitSlash rest with
    | nil => exact absurd h (splitSlash_ne_nil rest)
    | cons u us =>
      simp only [splitSlash_cons, h] at ht
      have ihu : '/' ∉ u := ih u (by rw [h]; simp)
      have ihus : ∀ x ∈ us, '/' ∉ x := fun x hx => ih x (by rw [h]; simp [hx])
      by_cases hc : c = '/'
      · rw [if_pos hc] at ht
        rcases List.mem_cons.mp ht with h1 | h1
        · simp [h1]
        · rcases List.mem_cons.mp h1 with h2 | h2
          · exact h2 ▸ ihu
          · exact ihus t h2
      · rw [if_neg hc] at ht
        rcases List.mem_cons.mp ht with h1 | h1
        · subst h1
          intro hmem
          rcases List.mem_cons.mp hmem with h2 | h2
          · exact hc h2.symm
          · exact ihu h2
        · exact ihus t h1

theorem mem_splitNonEmpty (s : Str) :
    ∀ t ∈ splitNonEmpty s, t ≠ [] ∧ '/' ∉ t := by
  intro t ht
  simp only [splitNonEmpty, List.mem_filter] at ht
  refine ⟨by simpa using ht.2, splitSlash_not_mem s t ht.1⟩

/-- Splitting distributes over a separator occurrence. -/
theorem splitSlash_append (a b : Str) :
    splitSlash (a ++ '/' :: b) = splitSlash a ++ splitSlash b := by
  induction a with
  | nil =>
    rw [List.nil_append, splitSlash_cons, splitSlash_nil]
    cases h : splitSlash b with
    | nil => exact absurd h (splitSlash_ne_nil b)
    | cons t ts => simp
  | cons c rest ih =>
    rw [List.cons_append, splitSlash_cons, ih, splitSlash_cons]
    cases h : splitSlash rest with
    | nil => exact absurd h (splitSlash_ne_nil rest)
    | cons t ts => by_cases hc : c = '/' <;> simp [hc]

theorem splitNonEmpty_append (a b : Str) :
    splitNonEmpty (a ++ '/' :: b) = splitNonEmpty a ++ splitNonEmpty b := by
  simp [splitNonEmpty, splitSlash_append, List.filter_append]

theorem splitNonEmpty_slash_cons (b : Str) :
    splitNonEmpty ('/' :: b) = splitNonEmpty b := by
  have := splitNonEmpty_append [] b
  simpa [splitNonEmpty, splitSlash_nil] using this

theorem splitSlash_no_slash (s : Str) (hns : '/' ∉ s) : splitSlash s = [s] := by
  induction s with
  | nil => exact splitSlash_nil
  | cons c rest ih =>
    have hc : c ≠ '/' := fun h => hns (by simp [h])
    rw [splitSlash_cons, ih (fun h => hns (by simp [h]))]
    simp [hc]

theorem splitNonEmpty_no_slash (s : Str) (hne : s ≠ []) (hns : '/' ∉ s) :
    splitNonEmpty s = [s] := by
  simp [splitNonEmpty, splitSlash_no_slash s hns, hne]

theorem decodeURI_nil : decodeURI [] = some [] := rfl

theorem decodeURI_cons_ne (c : Char) (rest : Str) (hc : c ≠ '%') :
    decodeURI (c :: rest) = (decodeURI rest).map (fun d => c :: d) := by
  rw [decodeURI.eq_def]
  simp only [hc, if_false]

theorem decodeURI_percent_long (h1 h2 : Char) (rest2 : Str) :
    decodeURI ('%' :: h1 :: h2 :: rest2) = decodePercent h1 h2 (decodeURI rest2) := rfl

theorem decodeURI_percent_nil : decodeURI ['%'] = none := rfl

theorem decodeURI_percent_one (h1 : Char) : decodeURI ['%', h1] = none := rfl

theorem hexVal_hexDigitChar (n : Nat) (h : n < 16) :
    hexVal (hexDigitChar n) = some n := by
  interval_cases n <;> rfl

theorem uriReserved_of_keep_false (c : Char) (hk : ¬ uriKeep c = true) :
    uriReserved c = false := by
  cases hre : uriReserved c with
  | false => rfl
  | true => exact absurd (by simp [uriKeep, hre]) hk

theorem toNat_lt_of_keep_false (c : Char) (hk : ¬ uriKeep c = true) :
    c.toNat < 128 := by
  by_contra h
  exact hk (by simp [uriKeep]; omega)

theorem decodeURI_encodeChar (c : Char) (rest : Str) :
    decodeURI (encodeChar c ++ rest) = (decodeURI rest).map (fun d => c :: d) := by
  by_cases hk : uriKeep c
  · have hnp : c ≠ '%' := by
      intro h
      rw [h] at hk
      simp [uriKeep, uriUnreservedMark, uriReserved, Char.isAlphanum,
        Char.isAlpha, Char.isUpper, Char.isLower, Char.isDigit] at hk
    rw [show encodeChar c = [c] from by simp [encodeChar, hk]]
    rw [List.cons_append, List.nil_append, decodeURI_cons_ne c rest hnp]
  · have hlt : c.toNat < 128 := toNat_lt_of_keep_false c hk
    have h16 : c.toNat / 16 < 16 := by omega
    have h16b : c.toNat % 16 < 16 := by omega
    have hb : 16 * (c.toNat / 16) + c.toNat % 16 = c.toNat := by omega
    have hres : uriReserved c = false := uriReserved_of_keep_false c hk
    have hofn : Char.ofNat c.toNat = c := Char.ofNat_toNat c
    rw [show encodeChar c =
      ['%', hexDigitChar (c.toNat / 16), hexDigitChar (c.toNat % 16)] from by
        simp [encodeChar, hk]]
    rw [List.cons_append, List.cons_append, List.cons_append, List.nil_append]
    rw [decodeURI_percent_long]
    rw [decodePercent, hexVal_hexDigitChar _ h16, hexVal_hexDigitChar _ h16b]
    simp only [hb, hofn, hres]
    have hnb : ¬ 128 ≤ c.toNat := by omega
    simp [hnb]

theorem decodeURI_encodeURI (s : Str) : decodeURI (encodeURI s) = some s := by
  induction s with
  | nil => rfl
  | cons c rest ih =>
    rw [encodeURI, decodeURI_encodeChar, ih]
    rfl

theorem decodeURI_no_percent (q : Str) (h : '%' ∉ q) : decodeURI q = some q := by
  induction q with
  | nil => rfl
  | cons c rest ih =>
    have hc : c ≠ '%' := fun he => h (by simp [he])
    rw [decodeURI_cons_ne c rest hc, ih (fun hm => h (by simp [hm]))]
    rfl

theorem decodeURI_append_aux (n : Nat) : ∀ (p q d : Str), p.length ≤ n →
    decodeURI p = some d →
    decodeURI (p ++ q) = (decodeURI q).map (fun e => d ++ e) := by
  induction n with
  | zero =>
    intro p q d hl h
    have hp : p = [] := List.eq_nil_of_length_eq_zero (Nat.le_zero.mp hl)
    subst hp
    rw [decodeURI_nil, Option.some.injEq] at h
    subst h
    cases hq : decodeURI q <;> simp [hq]
  | succ n ih =>
    intro p q d hl h
    cases p with
    | nil =>
      rw [decodeURI_nil, Option.some.injEq] at h
      subst h
      cases hq : decodeURI q <;> simp [hq]
    | cons c rest =>
      by_cases hc : c = '%'
      · subst hc
        cases rest with
        | nil => rw [decodeURI_percent_nil] at h; exact absurd h (by simp)
        | cons h1 rest1 =>
          cases rest1 with
          | nil => rw [decodeURI_percent_one] at h; exact absurd h (by simp)
          | cons h2 rest2 =>
            rw [decodeURI_percent_long] at h
            have hlen : rest2.length ≤ n := by
              simp [List.length_cons] at hl
              omega
            rw [List.cons_append, List.cons_append, List.cons_append,
              decodeURI_percent_long]
            cases hv1 : hexVal h1 with
            | none => rw [decodePercent, hv1] at h; simp at h
            | some v1 =>
              cases hv2 : hexVal h2 with
              | none => rw [decodePercent, hv1, hv2] at h; simp at h
              | some v2 =>
                rw [decodePercent, hv1, hv2] at h
                rw [decodePercent, hv1, hv2]
                simp only at h ⊢
                by_cases hb : 128 ≤ 16 * v1 + v2
                · rw [if_pos hb] at h; exact absurd h (by simp)
                · rw [if_neg hb] at h
                  rw [if_neg hb]
                  by_cases hr : uriReserved (Char.ofNat (16 * v1 + v2)) = true
                  · rw [if_pos hr] at h
                    rw [if_pos hr]
                    cases hd2 : decodeURI rest2 with
                    | none => rw [hd2] at h; exact absurd h (by simp)
                    | some d2 =>
                      rw [hd2] at h
                      simp only [Option.map_some', Option.some.injEq] at h
                      subst h
                      rw [ih rest2 q d2 hlen hd2]
                      cases hq : decodeURI q <;> simp [hq]
                  · rw [if_neg hr] at h
                    rw [if_neg hr]
                    cases hd2 : decodeURI rest2 with
                    | none => rw [hd2] at h; exact absurd h (by simp)
                    | some d2 =>
                      rw [hd2] at h
                      simp only [Option.map_some', Option.some.injEq] at h
                      subst h
                      rw [ih rest2 q d2 hlen hd2]
                      cases hq : decodeURI q <;> simp [hq]
      · rw [decodeURI_cons_ne c rest hc] at h
        cases hd : decodeURI rest with
        | none => rw [hd] at h; exact absurd h (by simp)
        | some d1 =>
          rw [hd] at h
          simp only [Option.map_some', Option.some.injEq] at h
          subst h
          have hlen : rest.length ≤ n := by
            simp [List.length_cons] at hl
            omega
          rw [List.cons_append, decodeURI_cons_ne c (rest ++ q) hc,
            ih rest q d1 hlen hd]
          cases hq : decodeURI q <;> simp [hq]

theorem decodeURI_append (p q d : Str) (h : decodeURI p = some d) :
    decodeURI (p ++ q) = (decodeURI q).map (fun e => d ++ e) :=
  decodeURI_append_aux p.length p q d (Nat.le_refl _) h

/-- Joining non-empty slash-free segments and re-splitting recovers them. -/
theorem splitNonEmpty_joinSlash (vs : List Str)
    (h : ∀ v ∈ vs, v ≠ [] ∧ '/' ∉ v) :
    splitNonEmpty (joinSlash vs) = vs := by
  induction vs with
  | nil => simp [joinSlash, splitNonEmpty, splitSlash, splitOnChar]
  | cons x xs ih =>
    cases xs with
    | nil =>
      have hx := h x (by simp)
      simp [joinSlash, splitNonEmpty_no_slash x hx.1 hx.2]
    | cons y ys =>
      have hx := h x (by simp)
      have : joinSlash (x :: y :: ys) = x ++ '/' :: joinSlash (y :: ys) := rfl
      rw [this, splitNonEmpty_append, splitNonEmpty_no_slash x hx.1 hx.2]
      rw [ih (fun v hv => h v (by simp [hv]))]
      simp

/-! ### Lemmas about the compiler -/
theorem matchParamAt_name_ne (s : Str) (m : RegexCaptures)
    (h : matchParamAt s = some m) : ¬ m.name.isEmpty := by
  rw [matchParamAt.eq_def] at h
  split at h
  · dsimp only at h
    split at h
    · exact absurd h (by simp)
    · rename_i hn
      rw [Option.some.injEq] at h
      subst h
      exact hn
  · exact absurd h (by simp)

theorem matchParam_name_ne (s : Str) (m : RegexCaptures)
    (h : matchParam s = some m) : ¬ m.name.isEmpty := by
  induction s with
  | nil => simp [matchParam] at h
  | cons c rest ih =>
    rw [matchParam] at h
    cases ha : matchParamAt (c :: rest) with
    | some m2 =>
      rw [ha] at h
      rw [Option.some.injEq] at h
      subst h
      exact matchParamAt_name_ne _ _ ha
    | none =>
      rw [ha] at h
      exact ih h

theorem compileToken_ok (path tok : Str) : ∃ b, compileToken path tok = .ok b := by
  cases hm : matchParam tok with
  | none => exact ⟨.part tok, by simp [compileToken, hm]⟩
  | some m =>
    have hne := matchParam_name_ne tok m hm
    refine ⟨.parameter m.name (deriveRules m.generic m.modif), ?_⟩
    simp only [compileToken, hm]
    rw [if_neg hne]

theorem compileTokens_ok (path : Str) (toks : List Str) :
    ∃ bs, compileTokens path toks = .ok bs := by
  induction toks with
  | nil => exact ⟨[], rfl⟩
  | cons tok rest ih =>
    obtain ⟨b, hb⟩ := compileToken_ok path tok
    obtain ⟨bs, hbs⟩ := ih
    exact ⟨b :: bs, by rw [compileTokens, hb, hbs]; rfl⟩

theorem compileTokens_get (path : Str) : ∀ (toks : List Str) (bs : List Block),
    compileTokens path toks = .ok bs →
    ∀ (i : Nat) (tok : Str), toks.get? i = some tok →
      ∃ b, bs.get? i = some b ∧ compileToken path tok = .ok b := by
  intro toks
  induction toks with
  | nil => intro bs h i tok hi; simp at hi
  | cons t rest ih =>
    intro bs h i tok hi
    rw [compileTokens] at h
    cases hct : compileToken path t with
    | error e => rw [hct] at h; exact absurd h (by simp)
    | ok b =>
      rw [hct] at h
      cases hr : compileTokens path rest with
      | error e => rw [hr] at h; exact absurd h (by simp [Except.map])
      | ok bs2 =>
        rw [hr] at h
        have hbs : bs = b :: bs2 := by
          simpa [Except.map] using h.symm
        subst hbs
        cases i with
        | zero =>
          rw [List.get?_cons_zero, Option.some.injEq] at hi
          subst hi
          exact ⟨b, by simp, hct⟩
        | succ j =>
          rw [List.get?_cons_succ] at hi
          obtain ⟨b2, hb2, hcb2⟩ := ih bs2 hr j tok hi
          exact ⟨b2, by simpa using hb2, hcb2⟩

theorem compileTokens_mem (path : Str) : ∀ (toks : List Str) (bs : List Block),
    compileTokens path toks = .ok bs →
    ∀ b ∈ bs, ∃ tok ∈ toks, compileToken path tok = .ok b := by
  intro toks
  induction toks with
  | nil =>
    intro bs h b hb
    rw [compileTokens] at h
    rw [Except.ok.injEq] at h
    subst h
    simp at hb
  | cons t rest ih =>
    intro bs h b hb
    rw [compileTokens] at h
    cases hct : compileToken path t with
    | error e => rw [hct] at h; exact absurd h (by simp)
    | ok b1 =>
      rw [hct] at h
      cases hr : compileTokens path rest with
      | error e => rw [hr] at h; exact absurd h (by simp [Except.map])
      | ok bs2 =>
        rw [hr] at h
        have hbs : bs = b1 :: bs2 := by simpa [Except.map] using h.symm
        subst hbs
        rcases List.mem_cons.mp hb with h1 | h1
        · exact ⟨t, by simp, h1 ▸ hct⟩
        · obtain ⟨tok, htok, hcb⟩ := ih bs2 hr b h1
          exact ⟨tok, by simp [htok], hcb⟩

/-! ### Lemmas about the parse loop -/
/-- A successful parse pins every `Literal` descriptor to a verbatim-equal
raw segment at its position. -/
theorem parseGo_part_verbatim : ∀ (bs : List Block) (parsed : List Str)
    (j : Nat) (acc : Option Params) (ps : Option Params) (i : Nat) (v : Str),
    parseGo parsed bs j acc = some ps →
    bs.get? i = some (.part v) →
    parsed.get? (j + i) = some v := by
  intro bs
  induction bs with
  | nil => intro parsed j acc ps i v h hi; simp at hi
  | cons b rest ih =>
    intro parsed j acc ps i v h hi
    cases b with
    | part w =>
      rw [parseGo] at h
      split at h
      · rename_i hw
        cases i with
        | zero =>
          rw [List.get?_cons_zero, Option.some.injEq] at hi
          rw [Block.part.injEq] at hi
          subst hi
          simpa using hw
        | succ k =>
          rw [List.get?_cons_succ] at hi
          have := ih parsed (j + 1) acc ps k v h hi
          rwa [show j + 1 + k = j + (k + 1) from by omega] at this
      · exact absurd h (by simp)
    | parameter name rules =>
      rw [parseGo] at h
      split at h
      · dsimp only at h
        split at h
        · exact absurd h (by simp)
        · cases i with
          | zero => simp at hi
          | succ k =>
            rw [List.get?_cons_succ] at hi
            have := ih parsed (j + 1) _ ps k v h hi
            rwa [show j + 1 + k = j + (k + 1) from by omega] at this
      · exact absurd h (by simp)

/-- The loop succeeds (with the accumulator unchanged) over a run of
`Literal` descriptors whose segments match. -/
theorem parseGo_all_parts : ∀ (vs : List Str) (parsed : List Str)
    (j : Nat) (acc : Option Params),
    (∀ (k : Nat) (v : Str), vs.get? k = some v → parsed.get? (j + k) = some v) →
    parseGo parsed (vs.map .part) j acc = some acc := by
  intro vs
  induction vs with
  | nil => intro parsed j acc h; rfl
  | cons v rest ih =>
    intro parsed j acc h
    rw [List.map_cons, parseGo]
    rw [if_pos (by simpa using h 0 v (by simp))]
    exact ih parsed (j + 1) acc (fun k w hk => by
      have := h (k + 1) w (by simpa using hk)
      rwa [show j + (k + 1) = j + 1 + k from by omega] at this)

/-- Without array descriptors the loop reads only the raw segments at the
descriptor positions. -/
theorem parseGo_agree : ∀ (bs : List Block) (parsed parsed' : List Str)
    (j : Nat) (acc : Option Params),
    noArrayBlocks bs →
    (∀ k, k < bs.length → parsed.get? (j + k) = parsed'.get? (j + k)) →
    parseGo parsed bs j acc = parseGo parsed' bs j acc := by
  intro bs
  induction bs with
  | nil => intro parsed parsed' j acc hna hag; rfl
  | cons b rest ih =>
    intro parsed parsed' j acc hna hag
    have hg0 : parsed.get? j = parsed'.get? j := by
      have := hag 0 (by simp)
      simpa using this
    have hagr : ∀ k, k < rest.length →
        parsed.get? (j + 1 + k) = parsed'.get? (j + 1 + k) := by
      intro k hk
      have := hag (k + 1) (by simp; omega)
      rwa [show j + (k + 1) = j + 1 + k from by omega] at this
    have hnar : noArrayBlocks rest := fun n r hm => hna n r (by simp [hm])
    cases b with
    | part w =>
      rw [parseGo, parseGo, hg0]
      by_cases hw : parsed'.get? j = some w
      · rw [if_pos hw, if_pos hw]
        exact ih parsed parsed' (j + 1) acc hnar hagr
      · rw [if_neg hw, if_neg hw]
    | parameter name rules =>
      have harr : rules.array = none := hna name rules (by simp)
      have hval : validatorRun rules parsed j = validatorRun rules parsed' j := by
        rw [validatorRun.eq_def, validatorRun.eq_def, harr]
        simp only [hg0]
      have hpar : parserRun rules parsed j = parserRun rules parsed' j := by
        rw [parserRun.eq_def, parserRun.eq_def, harr]
        simp only [hg0]
      rw [parseGo, parseGo, hval, hpar]
      by_cases hv : validatorRun rules parsed' j
      · rw [if_pos hv, if_pos hv]
        by_cases hn : isNullV (parserRun rules parsed' j)
        · rw [if_pos hn, if_pos hn]
        · rw [if_neg hn, if_neg hn]
          exact ih parsed parsed' (j + 1) _ hnar hagr
      · rw [if_neg hv, if_neg hv]

/-! ### Lemmas about greedy array consumption -/
theorem consumeValidate_all (rules : RawRules) : ∀ (segs : List Str) (n : Nat),
    (∀ s ∈ segs, s ≠ []) →
    consumeValidate rules none segs n =
      (if segs.all (fun s => baseValidator rules (some s)) then
        some (n + segs.length) else none) := by
  intro segs
  induction segs with
  | nil => intro n h; simp [consumeValidate]
  | cons s rest ih =>
    intro n h
    have hs : ¬ s.isEmpty := by simpa using h s (by simp)
    rw [consumeValidate]
    rw [if_pos (by simp [hs, underMax])]
    by_cases hb : baseValidator rules (some s)
    · rw [if_pos hb, ih (n + 1) (fun x hx => h x (by simp [hx]))]
      by_cases ha : rest.all (fun x => baseValidator rules (some x))
      · rw [if_pos ha, if_pos (by simp [hb, ha])]
        rw [Option.some.injEq]
        simp
        omega
      · rw [if_neg ha, if_neg (by simp [List.all_cons, hb, ha])]
    · rw [if_neg hb, if_neg (by simp [List.all_cons, hb])]

theorem consumeParse_all (rules : RawRules) : ∀ (segs : List Str) (n : Nat),
    (∀ s ∈ segs, s ≠ []) →
    consumeParse rules none segs n = segs.map (fun s => baseParser rules (some s)) := by
  intro segs
  induction segs with
  | nil => intro n h; simp [consumeParse]
  | cons s rest ih =>
    intro n h
    have hs : ¬ s.isEmpty := by simpa using h s (by simp)
    rw [consumeParse]
    rw [if_pos (by simp [hs, underMax])]
    rw [ih (n + 1) (fun x hx => h x (by simp [hx]))]
    rfl

/-- Claim C6: on the template `/profile/:id+`, `parse('/profile')` returns
null (the one-or-more modifier requires at least one consumed segment), and
`parse('/profile/1/2')` returns params with `id = ['1','2']` in input
order. -/
theorem claim6_one_or_more :
    compile (S "/profile/:id+") = .ok idPlusBlocks ∧
    parse idPlusBlocks (S "/profile") = some .failure ∧
    parse idPlusBlocks (S "/profile/1/2") =
      some (.success ⟨S "/profile/1/2",
        some [(S "id", .arr [.str (S "1"), .str (S "2")])]⟩) :=
  ⟨rfl, rfl, rfl⟩

/-- Claim C7: on the template `/profile/:id*`, `parse('/profile')` succeeds
and returns params `{id: []}` (an empty array, not null and not an absent
key): the zero-or-more modifier accepts zero consumed segments. -/
theorem claim7_zero_or_more :
    compile (S "/profile/:id*") = .ok idStarBlocks ∧
    parse idStarBlocks (S "/profile") =
      some (.success ⟨S "/profile", some [(S "id", .arr [])]⟩) :=
  ⟨rfl, rfl⟩

/-- Claim C1 fails as stated: for the printable value `v = "a/b"` on the
template `/profile/:id`, `parse(build({id: v}))` succeeds but its `params.id`
is `"a"`, not `v`. -/
theorem claim1_counterexample :
    compile (S "/profile/:id") = .ok idBlocks ∧
    build idBlocks [(S "id", .str (S "a/b"))] = .ok (S "/profile/a/b") ∧
    parse idBlocks (S "/profile/a/b") =
      some (.success ⟨S "/profile/a/b", some [(S "id", .str (S "a"))]⟩) ∧
    Value.str (S "a") ≠ Value.str (S "a/b") :=
  ⟨rfl, rfl, rfl, by intro h; injection h with h1; exact absurd h1 (by decide)⟩

/-- Claim C2 fails as stated: on `/profile/:id<number>*`,
`parse('/profile/1/x')` returns null — the invalid segment `'x'` aborts the
whole parse (the validator returns `false`) instead of merely ending
consumption with `id = [1]`. -/
theorem claim2_counterexample :
    compile (S "/profile/:id<number>*") = .ok numStarBlocks ∧
    parse numStarBlocks (S "/profile/1/x") = some .failure :=
  ⟨rfl, rfl⟩

/-- Claim C3 fails as stated: the example templates whose parameter token has
no capturable name (`':'` alone, or `':'` followed by non-word characters) do
not raise a compile error; the token does not match the unanchored parameter
regex at all and compiles to a `Literal`. -/
theorem claim3_counterexample :
    compile (S "/:") = .ok [.part [':']] ∧
    compile (S "/:-") = .ok [.part [':', '-']] :=
  ⟨rfl, rfl⟩

/-- Claim C4 fails as stated: on `/profile/:id` the parameter `id` is present
in the record with the falsy value `0`, yet `build` raises the
missing-required-parameter error instead of stringifying it. -/
theorem claim4_counterexample :
    lookupParam (S "id") [(S "id", .num 0)] = .num 0 ∧
    build idBlocks [(S "id", .num 0)] = .error (.missingParam (S "id")) :=
  ⟨rfl, rfl⟩

/-- Claim C5 fails as stated: the token `foo:bar` has no `:` prefix, yet it
is compiled to a parameter named `bar` (the JS regex is unanchored), not to a
literal matched verbatim — indeed the compiled template accepts the unrelated
path `/xyz`. -/
theorem claim5_counterexample :
    compile (S "/foo:bar") = .ok [.parameter (S "bar") ⟨true, .string, none⟩] ∧
    [Block.parameter (S "bar") ⟨true, .string, none⟩] ≠ [Block.part (S "foo:bar")] ∧
    parse [.parameter (S "bar") ⟨true, .string, none⟩] (S "/xyz") =
      some (.success ⟨S "/xyz", some [(S "bar", .str (S "xyz"))]⟩) :=
  ⟨rfl, by decide, rfl⟩

/-- Claim C10 fails as stated: the template `/profile/:id?` does not end in a
ZeroOrMore/OneOrMore parameter and `parse('/profile')` succeeds, yet
appending `/extra` changes the params (`id` goes from `undefined` to
`'extra'`): the optional descriptor captures the appended segment. -/
theorem claim10_counterexample :
    compile (S "/profile/:id?") = .ok idOptBlocks ∧
    parse idOptBlocks (S "/profile") =
      some (.success ⟨S "/profile", some [(S "id", .undef)]⟩) ∧
    parse idOptBlocks (S "/profile/extra") =
      some (.success ⟨S "/profile/extra", some [(S "id", .str (S "extra"))]⟩) ∧
    Value.undef ≠ Value.str (S "extra") :=
  ⟨rfl, rfl, rfl, by intro h; exact Value.noConfusion h⟩

/-- Claim C3 (amended): `compile` never fails on any template.  A parameter
token with no capturable name does not match the (unanchored) parameter
regex, whose `\w+` name group requires at least one word character, so such
tokens compile to `Literal` descriptors; the unnamed-parameter compile error
is unreachable. -/
theorem claim3_compile_never_fails (path : Str) :
    ∃ bs, compile path = .ok bs := by
  rw [compile]
  exact compileTokens_ok path (splitNonEmpty path)

/-- Claim C5 (amended): a template token on which the parameter regex finds
no match anywhere (no `:` immediately followed by a word character — a mere
missing `:` prefix is not enough, e.g. `foo:bar` matches at `:bar`) is
compiled to a `Literal` descriptor holding the raw token, and a successful
parse requires the raw segment at that descriptor's position to equal the
token verbatim. -/
theorem claim5_literal_tokens :
    (∀ (path : Str) (bs : List Block) (i : Nat) (tok : Str),
      compile path = .ok bs →
      (splitNonEmpty path).get? i = some tok →
      matchParam tok = none →
      bs.get? i = some (.part tok)) ∧
    (∀ (bs : List Block) (parsed : List Str) (ps : Option Params)
        (i : Nat) (v : Str),
      parseGo parsed bs 0 none = some ps →
      bs.get? i = some (.part v) →
      parsed.get? i = some v) := by
  constructor
  · intro path bs i tok hc hi hm
    rw [compile] at hc
    obtain ⟨b, hb, hcb⟩ := compileTokens_get path (splitNonEmpty path) bs hc i tok hi
    rw [compileToken] at hcb
    rw [hm] at hcb
    simp only [Except.ok.injEq] at hcb
    rwa [← hcb] at hb
  · intro bs parsed ps i v h hi
    have := parseGo_part_verbatim bs parsed 0 none ps i v h hi
    rwa [Nat.zero_add] at this

/-- Witness for C5 at `/profile/:id` with the raw path `/profile/x`. -/
theorem claim5_literal_tokens_witness :
    idBlocks.get? 0 = some (.part (S "profile")) ∧
    [S "profile", S "x"].get? 0 = some (S "profile") :=
  ⟨claim5_literal_tokens.1 (S "/profile/:id") idBlocks 0 (S "profile") rfl rfl rfl,
   claim5_literal_tokens.2 idBlocks [S "profile", S "x"]
     (some [(S "id", .str (S "x"))]) 0 (S "profile") rfl rfl⟩

theorem baseValidator_number (ar : Option ArrayRules) (s : Str) (hs : s ≠ []) :
    baseValidator ⟨true, .number, ar⟩ (some s) = (jsParseInt s).isSome := by
  have ht : truthySeg (some s) = true := by simp [truthySeg, hs]
  rw [baseValidator]
  simp [ht]

/-- Claim C9: on `/profile/:id<number>`, `parse('/profile/123')` yields the
number `123` (not the string); validation accepts exactly the segments whose
permissive `parseInt` is not `NaN`, so `'12abc'` is accepted and parses to
`12`. -/
theorem claim9_number_typed :
    compile (S "/profile/:id<number>") = .ok numBlocks ∧
    parse numBlocks (S "/profile/123") =
      some (.success ⟨S "/profile/123", some [(S "id", .num 123)]⟩) ∧
    parse numBlocks (S "/profile/12abc") =
      some (.success ⟨S "/profile/12abc", some [(S "id", .num 12)]⟩) ∧
    (∀ (input d s : Str),
      decodeURI input = some d →
      splitNonEmpty d = [S "profile", s] →
      parse numBlocks input =
        some (match jsParseInt s with
          | some n => .success ⟨input, some [(S "id", .num n)]⟩
          | none => .failure)) := by
  refine ⟨rfl, rfl, rfl, ?_⟩
  intro input d s hdec hsplit
  have hs : s ≠ [] := (mem_splitNonEmpty d s (by rw [hsplit]; simp)).1
  rw [parse, hdec]
  dsimp only
  rw [hsplit]
  rw [show numBlocks =
    [.part (S "profile"), .parameter (S "id") ⟨true, .number, none⟩] from rfl]
  rw [parseGo,
    if_pos (show [S "profile", s].get? 0 = some (S "profile") from rfl), parseGo]
  have hval : validatorRun ⟨true, .number, none⟩ [S "profile", s] 1 =
      (jsParseInt s).isSome := by
    rw [validatorRun]
    have hg : [S "profile", s].get? 1 = some s := rfl
    have ht : truthySeg ([S "profile", s].get? 1) = true := by
      simp [hg, truthySeg, hs]
    simp only [hg]
    rw [if_neg (by simp [truthySeg, hs]), if_neg (by simp [truthySeg, hs])]
    exact baseValidator_number none s hs
  cases hn : jsParseInt s with
  | some n =>
    rw [if_pos (by rw [hval, hn]; rfl)]
    have hpar : parserRun ⟨true, .number, none⟩ [S "profile", s] 1 = .num n := by
      simp [parserRun, baseParser, truthySeg, hs, hn]
    rw [hpar]
    rfl
  | none =>
    have hvf : validatorRun ⟨true, .number, none⟩ [S "profile", s] 1 = false := by
      rw [hval, hn]
      rfl
    rw [if_neg (show ¬ validatorRun ⟨true, .number, none⟩ [S "profile", s] 1 = true
      from by rw [hvf]; exact Bool.false_ne_true)]

/-- Witness for C9's quantified clause at the raw path `/profile/0x1A`
(`parseInt` reads the hex prefix, giving 26). -/
theorem claim9_number_typed_witness :
    parse numBlocks (S "/profile/0x1A") =
      some (.success ⟨S "/profile/0x1A", some [(S "id", .num 26)]⟩) := by
  have h := claim9_number_typed.2.2.2 (S "/profile/0x1A") (S "/profile/0x1A")
    (S "0x1A") rfl rfl
  rw [h]
  rfl

theorem all_baseValidator_number (ar : Option ArrayRules) :
    ∀ (l : List Str), (∀ s ∈ l, s ≠ []) →
    l.all (fun s => baseValidator ⟨true, .number, ar⟩ (some s)) =
      l.all (fun s => (jsParseInt s).isSome) := by
  intro l
  induction l with
  | nil => intro hl; rfl
  | cons x xs ih =>
    intro hl
    rw [List.all_cons, List.all_cons, baseValidator_number ar x (hl x (by simp)),
      ih (fun s hs => hl s (by simp [hs]))]

/-- Claim C2 (amended): on a template whose final descriptor is a ZeroOrMore
parameter, `parse` greedily consumes consecutive raw segments, but a segment
that fails base validation aborts the entire parse with null (the validator
returns false) instead of merely ending consumption; when every remaining
segment passes base validation the parse succeeds, binding the full typed
array. -/
theorem claim2_greedy_abort :
    compile (S "/profile/:id<number>*") = .ok numStarBlocks ∧
    (∀ (input d : Str) (rest : List Str),
      decodeURI input = some d →
      splitNonEmpty d = S "profile" :: rest →
      parse numStarBlocks input =
        some (if rest.all (fun s => (jsParseInt s).isSome) then
          .success ⟨input, some [(S "id",
            .arr (rest.map (fun s => Value.num ((jsParseInt s).getD 0))))]⟩
        else .failure)) := by
  refine ⟨rfl, ?_⟩
  intro input d rest hdec hsplit
  have hne : ∀ s ∈ rest, s ≠ [] :=
    fun s hsm => (mem_splitNonEmpty d s (by rw [hsplit]; simp [hsm])).1
  rw [parse, hdec]
  dsimp only
  rw [hsplit]
  rw [show numStarBlocks = [.part (S "profile"),
    .parameter (S "id") ⟨true, .number, some ⟨none, none⟩⟩] from rfl]
  rw [parseGo,
    if_pos (show (S "profile" :: rest).get? 0 = some (S "profile") from rfl),
    parseGo]
  have hval : validatorRun ⟨true, .number, some ⟨none, none⟩⟩
      (S "profile" :: rest) 1 = rest.all (fun s => (jsParseInt s).isSome) := by
    rw [validatorRun]
    dsimp only
    rw [show (S "profile" :: rest).drop 1 = rest from rfl]
    rw [consumeValidate_all _ rest 0 hne]
    rw [all_baseValidator_number (some ⟨none, none⟩) rest hne]
    cases ha : rest.all (fun s => (jsParseInt s).isSome) with
    | true => simp [overMax]
    | false => simp
  have hpar : parserRun ⟨true, .number, some ⟨none, none⟩⟩
      (S "profile" :: rest) 1 =
      .arr (rest.map (fun s => baseParser ⟨true, .number, some ⟨none, none⟩⟩ (some s))) := by
    rw [parserRun]
    dsimp only
    rw [show (S "profile" :: rest).drop 1 = rest from rfl]
    rw [consumeParse_all _ rest 0 hne]
    simp [overMax]
  cases ha : rest.all (fun s => (jsParseInt s).isSome) with
  | true =>
    rw [if_pos (by rw [hval, ha])]
    have hmap : rest.map (fun s => baseParser ⟨true, .number, some ⟨none, none⟩⟩ (some s)) =
        rest.map (fun s => Value.num ((jsParseInt s).getD 0)) := by
      apply List.map_congr_left
      intro s hsm
      have hs : s ≠ [] := hne s hsm
      have hsome : (jsParseInt s).isSome := by
        have := (List.all_eq_true.mp ha) s hsm
        simpa using this
      obtain ⟨n, hn⟩ := Option.isSome_iff_exists.mp hsome
      simp [baseParser, truthySeg, hs, hn]
    rw [hpar, hmap]
    dsimp only
    rw [if_neg (show ¬ isNullV (Value.arr
      (rest.map (fun s => Value.num ((jsParseInt s).getD 0)))) = true
      from by simp [isNullV])]
    rw [parseGo]
    rfl
  | false =>
    rw [if_neg (by rw [hval, ha]; exact Bool.false_ne_true)]
    rfl

/-- Witness for C2's amended statement at the raw path `/profile/1/2`. -/
theorem claim2_greedy_abort_witness :
    parse numStarBlocks (S "/profile/1/2") =
      some (.success ⟨S "/profile/1/2",
        some [(S "id", .arr [.num 1, .num 2])]⟩) := by
  have h := claim2_greedy_abort.2 (S "/profile/1/2") (S "/profile/1/2")
    [S "1", S "2"] rfl rfl
  rw [h]
  rfl

theorem compileToken_part_inv (path tok v : Str)
    (h : compileToken path tok = .ok (.part v)) : tok = v := by
  cases hm : matchParam tok with
  | none =>
    simp only [compileToken, hm] at h
    rw [Except.ok.injEq] at h
    exact (Block.part.injEq tok v).mp h
  | some m =>
    simp only [compileToken, hm] at h
    split at h
    · exact absurd h (by simp)
    · rw [Except.ok.injEq] at h
      exact absurd h (by simp)

theorem compile_part_props (tpl : Str) (bs : List Block) (v : Str)
    (hc : compile tpl = .ok bs) (hm : Block.part v ∈ bs) :
    v ≠ [] ∧ '/' ∉ v := by
  rw [compile] at hc
  obtain ⟨tok, htok, hcb⟩ := compileTokens_mem tpl (splitNonEmpty tpl) bs hc _ hm
  have := compileToken_part_inv tpl tok v hcb
  subst this
  exact mem_splitNonEmpty tpl tok htok

/-- Claim C1 (amended): for every template compiling to one literal segment
followed by the single required string parameter `:id`, and every non-empty
printable value `v` that contains no `/`, `parse(build({id: v}))` succeeds
and its `params.id` equals `v`.  (A `v` containing `/` builds extra path
segments and round-trips to its first segment only.) -/
theorem claim1_roundtrip_single_param :
    ∀ (tpl lit v : Str),
      compile tpl = .ok [.part lit, .parameter (S "id") ⟨true, .string, none⟩] →
      v ≠ [] →
      (∀ c ∈ v, 32 ≤ c.toNat ∧ c.toNat ≤ 126) →
      '/' ∉ v →
      ∃ built,
        build [.part lit, .parameter (S "id") ⟨true, .string, none⟩]
          [(S "id", .str v)] = .ok built ∧
        parse [.part lit, .parameter (S "id") ⟨true, .string, none⟩] built =
          some (.success ⟨built, some [(S "id", .str v)]⟩) := by
  intro tpl lit v hc hv _hprint hslash
  obtain ⟨hlitne, hlitns⟩ := compile_part_props tpl _ lit hc (by simp)
  have hbuildGo : buildGo [.part lit, .parameter (S "id") ⟨true, .string, none⟩]
      [(S "id", .str v)] = .ok [lit, v] := by
    simp [buildGo, lookupParam, truthyV, hv, stringifyParam, Except.map]
  refine ⟨encodeURI ('/' :: (lit ++ '/' :: v)), ?_, ?_⟩
  · rw [build, hbuildGo]
    have hfilter : [lit, v].filter (fun t => ¬ t.isEmpty) = [lit, v] := by
      rw [List.filter_cons_of_pos (by simp [hlitne]),
        List.filter_cons_of_pos (by simp [hv]), List.filter_nil]
    dsimp only [Except.map]
    rw [hfilter]
    rfl
  · rw [parse, decodeURI_encodeURI]
    dsimp only
    rw [splitNonEmpty_slash_cons, splitNonEmpty_append,
      splitNonEmpty_no_slash lit hlitne hlitns,
      splitNonEmpty_no_slash v hv hslash]
    rw [parseGo, if_pos (show ([lit] ++ [v]).get? 0 = some lit from rfl)]
    rw [parseGo]
    have hget1 : ([lit] ++ [v]).get? 1 = some v := rfl
    have hval : validatorRun ⟨true, .string, none⟩ ([lit] ++ [v]) 1 = true := by
      simp [validatorRun, hget1, truthySeg, hv, baseValidator]
    have hpar : parserRun ⟨true, .string, none⟩ ([lit] ++ [v]) 1 = .str v := by
      simp [parserRun, hget1, truthySeg, hv, baseParser]
    rw [if_pos hval, hpar]
    dsimp only
    rw [if_neg (show ¬ isNullV (.str v) = true from by simp [isNullV])]
    rw [parseGo]
    rfl

/-- Witness for C1's amended statement at `/profile/:id` with `v = "world"`. -/
theorem claim1_roundtrip_single_param_witness :
    ∃ built,
      build [.part (S "profile"), .parameter (S "id") ⟨true, .string, none⟩]
        [(S "id", .str (S "world"))] = .ok built ∧
      parse [.part (S "profile"), .parameter (S "id") ⟨true, .string, none⟩]
        built = some (.success ⟨built, some [(S "id", .str (S "world"))]⟩) :=
  claim1_roundtrip_single_param (S "/profile/:id") (S "profile") (S "world")
    rfl (by decide) (by decide) (by decide)

theorem buildGo_parts : ∀ (vs : List Str) (ps : Params),
    buildGo (vs.map .part) ps = .ok vs := by
  intro vs ps
  induction vs with
  | nil => rfl
  | cons v rest ih => rw [List.map_cons, buildGo, ih]; rfl

theorem parts_structure : ∀ (bs : List Block),
    (∀ b ∈ bs, ∃ v, b = .part v) →
    ∃ vs : List Str, bs = vs.map Block.part := by
  intro bs
  induction bs with
  | nil => intro h; exact ⟨[], rfl⟩
  | cons b rest ih =>
    intro h
    obtain ⟨v, hv⟩ := h b (by simp)
    obtain ⟨vs, hvs⟩ := ih (fun b2 hb2 => h b2 (by simp [hb2]))
    refine ⟨v :: vs, ?_⟩
    rw [hv, hvs]
    rfl

/-- Claim C8: for every template with zero parameter descriptors, `build`
produces a path string and `parse` of that string returns
`{path: <the built string>, params: null}` — the params field is the null
marker, never an empty mapping. -/
theorem claim8_zero_params_roundtrip :
    ∀ (tpl : Str) (bs : List Block),
      compile tpl = .ok bs →
      (∀ b ∈ bs, ∃ v, b = .part v) →
      ∃ built, build bs [] = .ok built ∧
        parse bs built = some (.success ⟨built, none⟩) := by
  intro tpl bs hc hall
  obtain ⟨vs, rfl⟩ := parts_structure bs hall
  have hprops : ∀ v ∈ vs, v ≠ [] ∧ '/' ∉ v := fun v hv =>
    compile_part_props tpl _ v hc (List.mem_map_of_mem _ hv)
  have hfilter : vs.filter (fun t => ¬ t.isEmpty) = vs := by
    rw [List.filter_eq_self]
    intro v hv
    simp [(hprops v hv).1]
  refine ⟨encodeURI ('/' :: joinSlash vs), ?_, ?_⟩
  · rw [build, buildGo_parts]
    dsimp only [Except.map]
    rw [hfilter]
  · rw [parse, decodeURI_encodeURI]
    dsimp only
    rw [splitNonEmpty_slash_cons, splitNonEmpty_joinSlash vs hprops]
    rw [parseGo_all_parts vs vs 0 none
      (fun k v hk => by rw [Nat.zero_add]; exact hk)]

/-- Witness for C8 at the zero-parameter template `/profile`. -/
theorem claim8_zero_params_roundtrip_witness :
    ∃ built, build [.part (S "profile")] [] = .ok built ∧
      parse [.part (S "profile")] built = some (.success ⟨built, none⟩) :=
  claim8_zero_params_roundtrip (S "/profile") [.part (S "profile")] rfl
    (fun b hb => ⟨S "profile", by simpa using hb⟩)

theorem lookupParam_mem (name : Str) : ∀ (ps : Params),
    lookupParam name ps = .undef ∨ (name, lookupParam name ps) ∈ ps := by
  intro ps
  induction ps with
  | nil => exact Or.inl rfl
  | cons kv rest ih =>
    obtain ⟨k, w⟩ := kv
    by_cases hk : k = name
    · right
      rw [lookupParam, if_pos hk]
      rw [← hk]
      simp
    · rw [lookupParam, if_neg hk]
      rcases ih with h | h
      · exact Or.inl h
      · exact Or.inr (by simp [h])

theorem exceptMap_error_iff {ε α β : Type} (x : Except ε α) (f : α → β) (e : ε) :
    x.map f = .error e ↔ x = .error e := by
  cases x <;> simp [Except.map]

theorem missingWitness_cons_part (v : Str) (rest : List Block) (ps : Params) :
    missingWitness (Block.part v :: rest) ps ↔ missingWitness rest ps := by
  constructor
  · rintro ⟨n, r, hm, hreq, ht⟩
    rcases List.mem_cons.mp hm with h | h
    · exact absurd h (by simp)
    · exact ⟨n, r, h, hreq, ht⟩
  · rintro ⟨n, r, hm, hreq, ht⟩
    exact ⟨n, r, by simp [hm], hreq, ht⟩

theorem missingWitness_cons_param_skip (name : Str) (rules : RawRules)
    (rest : List Block) (ps : Params)
    (h : ¬ (rules.required = true ∧ truthyV (lookupParam name ps) = false)) :
    missingWitness (Block.parameter name rules :: rest) ps ↔
      missingWitness rest ps := by
  constructor
  · rintro ⟨n, r, hm, hreq, ht⟩
    rcases List.mem_cons.mp hm with h1 | h1
    · rw [Block.parameter.injEq] at h1
      obtain ⟨hn, hr⟩ := h1
      subst hn
      subst hr
      exact absurd ⟨hreq, ht⟩ h
    · exact ⟨n, r, h1, hreq, ht⟩
  · rintro ⟨n, r, hm, hreq, ht⟩
    exact ⟨n, r, by simp [hm], hreq, ht⟩

/-- Claim C4 (amended): `build` raises the missing-required-parameter error
exactly when some required parameter's looked-up value is JS-falsy — absence
reads as `undefined`, but a present falsy scalar (`0`, `''`, `false`, `NaN`,
`null`) triggers the same error; when every required parameter's value is
truthy, `build` stringifies the supplied values (assuming the values
stringify without the object-parameter error).  The error always names such
a parameter. -/
theorem claim4_required_error_truthiness :
    ∀ (bs : List Block) (ps : Params),
      (∀ kv ∈ ps, stringifyOk kv.2) →
      (((∃ n, buildGo bs ps = .error (.missingParam n)) ↔ missingWitness bs ps) ∧
       (∀ n, buildGo bs ps = .error (.missingParam n) →
        ∃ rules : RawRules, Block.parameter n rules ∈ bs ∧
          rules.required = true ∧ truthyV (lookupParam n ps) = false)) := by
  intro bs ps hok
  induction bs with
  | nil =>
    constructor
    · constructor
      · rintro ⟨n, hn⟩
        exact absurd hn (by simp [buildGo])
      · rintro ⟨n, r, hm, _, _⟩
        exact absurd hm (by simp)
    · intro n hn
      exact absurd hn (by simp [buildGo])
  | cons b rest ih =>
    cases b with
    | part v =>
      have hstep : buildGo (Block.part v :: rest) ps =
          (buildGo rest ps).map (fun r => v :: r) := rfl
      constructor
      · rw [missingWitness_cons_part]
        constructor
        · rintro ⟨n, hn⟩
          rw [hstep, exceptMap_error_iff] at hn
          exact ih.1.mp ⟨n, hn⟩
        · intro hmw
          obtain ⟨n, hn⟩ := ih.1.mpr hmw
          exact ⟨n, by rw [hstep, exceptMap_error_iff]; exact hn⟩
      · intro n hn
        rw [hstep, exceptMap_error_iff] at hn
        obtain ⟨r, hm, hreq, ht⟩ := ih.2 n hn
        exact ⟨r, by simp [hm], hreq, ht⟩
    | parameter name rules =>
      by_cases h1 : truthyV (lookupParam name ps)
      · have hv : stringifyOk (lookupParam name ps) := by
          rcases lookupParam_mem name ps with h | h
          · rw [h] at h1; simp [truthyV] at h1
          · exact hok _ h
        obtain ⟨s, hs⟩ := hv
        have hstep : buildGo (Block.parameter name rules :: rest) ps =
            (buildGo rest ps).map (fun r => s :: r) := by
          rw [buildGo]
          rw [if_neg (by simp [h1]), if_neg (by simp [h1]), hs]
        have hskip := missingWitness_cons_param_skip name rules rest ps
          (by intro hc; rw [hc.2] at h1; simp at h1)
        constructor
        · rw [hskip]
          constructor
          · rintro ⟨n, hn⟩
            rw [hstep, exceptMap_error_iff] at hn
            exact ih.1.mp ⟨n, hn⟩
          · intro hmw
            obtain ⟨n, hn⟩ := ih.1.mpr hmw
            exact ⟨n, by rw [hstep, exceptMap_error_iff]; exact hn⟩
        · intro n hn
          rw [hstep, exceptMap_error_iff] at hn
          obtain ⟨r, hm, hreq, ht⟩ := ih.2 n hn
          exact ⟨r, by simp [hm], hreq, ht⟩
      · by_cases h2 : rules.required
        · have hstep : buildGo (Block.parameter name rules :: rest) ps =
              .error (.missingParam name) := by
            rw [buildGo]
            rw [if_pos (by simp [h1, h2])]
          constructor
          · constructor
            · intro _
              exact ⟨name, rules, by simp, h2, by simp [h1]⟩
            · intro _
              exact ⟨name, by rw [hstep]⟩
          · intro n hn
            rw [hstep] at hn
            rw [Except.error.injEq, BuildError.missingParam.injEq] at hn
            subst hn
            exact ⟨rules, by simp, h2, by simp [h1]⟩
        · have hstep : buildGo (Block.parameter name rules :: rest) ps =
              buildGo rest ps := by
            rw [buildGo]
            rw [if_neg (by simp [h2]), if_pos (by simp [h1])]
          have hskip := missingWitness_cons_param_skip name rules rest ps
            (by intro hc; exact h2 (by simp [hc.1]))
          constructor
          · rw [hskip]
            constructor
            · rintro ⟨n, hn⟩
              rw [hstep] at hn
              exact ih.1.mp ⟨n, hn⟩
            · intro hmw
              obtain ⟨n, hn⟩ := ih.1.mpr hmw
              exact ⟨n, by rw [hstep]; exact hn⟩
          · intro n hn
            rw [hstep] at hn
            obtain ⟨r, hm, hreq, ht⟩ := ih.2 n hn
            exact ⟨r, by simp [hm], hreq, ht⟩

/-- Witness for C4's amended statement: `/profile/:id` with an empty record
raises the error naming `id`. -/
theorem claim4_required_error_truthiness_witness :
    ∃ n, buildGo idBlocks [] = .error (.missingParam n) :=
  (claim4_required_error_truthiness idBlocks []
      (fun kv hk => absurd hk (by simp))).1.mpr
    ⟨S "id", ⟨true, .string, none⟩, by simp [idBlocks], rfl, rfl⟩

/-- Claim C10 (amended): when no descriptor is a ZeroOrMore/OneOrMore (array)
parameter — anywhere, not just in final position — and the input path
supplies at least as many raw segments as there are descriptors, surplus
trailing segments are silently ignored: appending `'/' ++ w` (for any `w`
without `%`) to a successfully parsed path parses again with equal params.
With fewer segments an optional descriptor can capture the appended segment,
and a non-final array descriptor can absorb appended segments into its
array, so both restrictions are necessary. -/
theorem claim10_trailing_segments_ignored :
    ∀ (bs : List Block) (p w d : Str) (r : ParseResult),
      noArrayBlocks bs →
      decodeURI p = some d →
      '%' ∉ w →
      bs.length ≤ (splitNonEmpty d).length →
      parse bs p = some (.success r) →
      parse bs (p ++ '/' :: w) =
        some (.success ⟨p ++ '/' :: w, r.params⟩) := by
  intro bs p w d r hna hdec hw hlen hp
  have hdec2 : decodeURI (p ++ '/' :: w) = some (d ++ '/' :: w) := by
    rw [decodeURI_append p ('/' :: w) d hdec]
    rw [decodeURI_no_percent ('/' :: w) (by
      intro hm
      rcases List.mem_cons.mp hm with h | h
      · exact absurd h.symm (by decide)
      · exact hw h)]
    rfl
  rw [parse, hdec] at hp
  dsimp only at hp
  rw [parse, hdec2]
  dsimp only
  rw [splitNonEmpty_append]
  cases hgo : parseGo (splitNonEmpty d) bs 0 none with
  | none =>
    rw [hgo] at hp
    simp at hp
  | some ps =>
    rw [hgo] at hp
    have hr : r = ⟨p, ps⟩ := by
      rw [Option.some.injEq] at hp
      cases hp
      rfl
    have hagree : parseGo (splitNonEmpty d ++ splitNonEmpty w) bs 0 none =
        parseGo (splitNonEmpty d) bs 0 none := by
      apply parseGo_agree bs _ _ 0 none hna
      intro k hk
      rw [Nat.zero_add]
      exact List.get?_append (Nat.lt_of_lt_of_le hk hlen)
    rw [hagree, hgo, hr]

/-- Witness for C10's amended statement: `/profile/x` plus `/extra` on
`/profile/:id`. -/
theorem claim10_trailing_segments_ignored_witness :
    parse idBlocks (S "/profile/x" ++ '/' :: S "extra") =
      some (.success ⟨S "/profile/x" ++ '/' :: S "extra",
        some [(S "id", .str (S "x"))]⟩) :=
  claim10_trailing_segments_ignored idBlocks (S "/profile/x") (S "extra")
    (S "/profile/x") ⟨S "/profile/x", some [(S "id", .str (S "x"))]⟩
    (by
      intro n rules hm
      simp only [idBlocks, List.mem_cons] at hm
      rcases hm with h | h | h
      · exact absurd h (by simp)
      · rw [Block.parameter.injEq] at h
        rw [h.2]
      · simp at h)
    rfl (by decide) (by decide) rfl

end ArgonPaths

